import Mathlib

/-!
Shallow embedding of the distdir core: IndexList assignments, the collective
map construction (three-phase negotiation of §4.2.1 of the design document),
the level-lift operator and the exchanger, together with proofs of the
documented invariants.  The map construction, lift and exchanger are modelled
from the specification because the repository snapshot contains only their
tests and examples.
-/

/-- Global state of one collective map construction: for every rank, the pair
(src IndexList, dst IndexList).  Rank `r` is position `r` in the list;
an IndexList is an ordered list of signed global indices. -/
def GState : Type := List (List Int × List Int)

/-- Number of ranks in the group. -/
def gsize (gs : GState) : Nat := gs.length

/-- Source IndexList of rank `r` (empty when out of range). -/
def srcOf (gs : GState) (r : Nat) : List Int := (gs.getD r ([], [])).1

/-- Destination IndexList of rank `r` (empty when out of range). -/
def dstOf (gs : GState) (r : Nat) : List Int := (gs.getD r ([], [])).2

/-- Position of the first occurrence of global index `i` in an IndexList. -/
def findSlot (i : Int) : List Int → Option Nat
  | [] => none
  | x :: xs => if x = i then some 0 else (findSlot i xs).map (· + 1)

/-- Scan `(rank, src list)` pairs in order and return the first rank owning
`i` together with the slot; the scan order makes the lowest rank win, the
broker tie-break rule of phase 2. -/
def ownerFrom (i : Int) : List (Nat × List Int) → Option (Nat × Nat)
  | [] => none
  | p :: rest =>
    match findSlot i p.2 with
    | some s => some (p.1, s)
    | none => ownerFrom i rest

/-- Owner rank and source slot of global index `i`: the lowest rank listing
`i` in its src, at the first slot where it lists it. -/
def ownerOf (gs : GState) (i : Int) : Option (Nat × Nat) :=
  ownerFrom i ((List.range gs.length).map (fun r => (r, srcOf gs r)))

/-- Match tuple `(owner, src_slot, wanter, dst_slot)` produced by the brokers
in phase 2 of map construction. -/
structure MatchTuple where
  owner : Nat
  src_slot : Nat
  wanter : Nat
  dst_slot : Nat
deriving Repr, DecidableEq

/-- Match tuples for the destination records of rank `w`, scanning its dst
IndexList from position `d`: every dst entry with an owner yields a tuple. -/
def rankTuplesAux (gs : GState) (w : Nat) : Nat → List Int → List MatchTuple
  | _, [] => []
  | d, i :: rest =>
    match ownerOf gs i with
    | some os => ⟨os.1, os.2, w, d⟩ :: rankTuplesAux gs w (d + 1) rest
    | none => rankTuplesAux gs w (d + 1) rest

/-- Match tuples generated for rank `w`'s destination IndexList. -/
def rankTuples (gs : GState) (w : Nat) : List MatchTuple :=
  rankTuplesAux gs w 0 (dstOf gs w)

/-- All match tuples of the collective, ordered by wanter rank then dst slot:
the deterministic global outcome of phases 1 and 2. -/
def allTuples (gs : GState) : List MatchTuple :=
  ((List.range gs.length).map (fun w => rankTuples gs w)).flatten

/-- Destination indices that no rank owns, with multiplicity, in wanter-rank
order: the UnmatchedIndex diagnostic payload. -/
def unmatchedOf (gs : GState) : List Int :=
  ((List.range gs.length).map
    (fun w => (dstOf gs w).filter (fun i => (ownerOf gs i).isNone))).flatten

/-- Exchange schedule of one rank in one direction: the ordered list of peer
legs, each a peer rank with the local slots referenced by that leg.  The flat
`buffer_indices`, `buffer_offsets`, `leg_sizes` and `buffer_size` views of the
concrete struct are derived below. -/
structure ExchangeSchedule where
  legs : List (Nat × List Nat)
deriving Repr, DecidableEq

/-- Number of peer legs of a schedule. -/
def ExchangeSchedule.count (sch : ExchangeSchedule) : Nat := sch.legs.length

/-- Peer ranks of a schedule, in schedule order. -/
def ExchangeSchedule.peer_ranks (sch : ExchangeSchedule) : List Nat :=
  sch.legs.map (·.1)

/-- Element count of every leg, in schedule order. -/
def ExchangeSchedule.leg_sizes (sch : ExchangeSchedule) : List Nat :=
  sch.legs.map (·.2.length)

/-- Flat gather/scatter permutation: the concatenation of the slot lists of
all legs. -/
def ExchangeSchedule.buffer_indices (sch : ExchangeSchedule) : List Nat :=
  (sch.legs.map (·.2)).flatten

/-- Total element count of the schedule. -/
def ExchangeSchedule.buffer_size (sch : ExchangeSchedule) : Nat :=
  sch.buffer_indices.length

/-- Cumulative offsets computed the way the construction loop does: the
running sum of the leg sizes seen so far. -/
def offsetsAux (acc : Nat) : List Nat → List Nat
  | [] => []
  | s :: rest => acc :: offsetsAux (acc + s) rest

/-- Start offset of every leg inside `buffer_indices`. -/
def ExchangeSchedule.buffer_offsets (sch : ExchangeSchedule) : List Nat :=
  offsetsAux 0 sch.leg_sizes

/-- Match tuples of the leg sent by rank `r` to rank `w`, in dst-slot order. -/
def legTuplesSend (gs : GState) (r w : Nat) : List MatchTuple :=
  (allTuples gs).filter (fun t => t.owner == r && t.wanter == w)

/-- Match tuples of the leg received by rank `r` from rank `o`, in dst-slot
order. -/
def legTuplesRecv (gs : GState) (r o : Nat) : List MatchTuple :=
  (allTuples gs).filter (fun t => t.wanter == r && t.owner == o)

/-- Send schedule assembled on rank `r` in phase 3: one leg per wanter rank
with traffic, wanter ranks ascending, slots within a leg ordered by the dst
slot they are sent to; the slots recorded are src slots. -/
def send_schedule (gs : GState) (r : Nat) : ExchangeSchedule :=
  ⟨((List.range gs.length).filter (fun w => !(legTuplesSend gs r w).isEmpty)).map
    (fun w => (w, (legTuplesSend gs r w).map (·.src_slot)))⟩

/-- Receive schedule assembled on rank `r` in phase 3: one leg per owner rank
with traffic, owner ranks ascending, slots within a leg ordered by dst slot;
the slots recorded are dst slots. -/
def recv_schedule (gs : GState) (r : Nat) : ExchangeSchedule :=
  ⟨((List.range gs.length).filter (fun o => !(legTuplesRecv gs r o).isEmpty)).map
    (fun o => (o, (legTuplesRecv gs r o).map (·.dst_slot)))⟩

/-- Result of the collective map construction observed on rank `r`: both
schedules on success, the UnmatchedIndex diagnostic when some destination
index has no owner.  The stride hint is advisory and does not change the
semantics. -/
def new_map (gs : GState) (stride_hint : Int) (r : Nat) :
    Except (List Int) (ExchangeSchedule × ExchangeSchedule) :=
  if unmatchedOf gs = [] then Except.ok (send_schedule gs r, recv_schedule gs r)
  else Except.error (unmatchedOf gs)

/-- Schedule pair family of a constructed map: send and recv schedule of every
rank. -/
def map_sched (gs : GState) (r : Nat) : ExchangeSchedule × ExchangeSchedule :=
  (send_schedule gs r, recv_schedule gs r)

/-- Pack step of the exchanger: staging position `k` receives the user buffer
element at `buffer_indices[k]`.  Buffers are total maps from position to
value. -/
def pack (buf : Nat → Int) (sch : ExchangeSchedule) : List Int :=
  sch.buffer_indices.map buf

/-- Slot list of the first leg addressed to `peer`, if any. -/
def findLeg (peer : Nat) : List (Nat × List Nat) → Option (List Nat)
  | [] => none
  | leg :: rest => if leg.1 = peer then some leg.2 else findLeg peer rest

/-- Start offset of the leg addressed to `peer` inside the staging buffer. -/
def legOffset (peer : Nat) : List (Nat × List Nat) → Nat
  | [] => 0
  | leg :: rest => if leg.1 = peer then 0 else leg.2.length + legOffset peer rest

/-- Wire data travelling from the owner of send schedule `sch` to `peer`: the
segment of the packed staging buffer posted for that leg, `leg_size` elements
starting at the leg's buffer offset. -/
def wire (sch : ExchangeSchedule) (buf : Nat → Int) (peer : Nat) : List Int :=
  match findLeg peer sch.legs with
  | some idxs => ((pack buf sch).drop (legOffset peer sch.legs)).take idxs.length
  | none => []

/-- Receive staging buffer of rank `r`: concatenation, in recv-schedule order,
of the wire data posted to `r` by each peer's send schedule. -/
def recvStaging (schedOf : Nat → ExchangeSchedule × ExchangeSchedule)
    (bufs : Nat → Nat → Int) (r : Nat) : List Int :=
  (((schedOf r).2.legs).map (fun leg => wire (schedOf leg.1).1 (bufs leg.1) r)).flatten

/-- Pointwise update of a buffer. -/
def writeAt (f : Nat → Int) (p : Nat) (v : Int) : Nat → Int :=
  fun q => if q = p then v else f q

/-- Sequential scatter: perform the writes `dst[fst] := snd` in list order. -/
def scatterList : List (Nat × Int) → (Nat → Int) → Nat → Int
  | [], base => base
  | pv :: rest, base => scatterList rest (writeAt base pv.1 pv.2)

/-- One collective exchange: every rank packs its send staging from its source
buffer, legs travel to their peers, and rank `r` scatters its receive staging
into its destination buffer `base r` at the recv `buffer_indices`.  The result
is the final destination buffer of rank `r`. -/
def exchanger_go (schedOf : Nat → ExchangeSchedule × ExchangeSchedule)
    (bufs base : Nat → Nat → Int) (r : Nat) : Nat → Int :=
  scatterList (((schedOf r).2.buffer_indices).zip (recvStaging schedOf bufs r)) (base r)

/-- Aliased exchange: source and destination are the same buffer.  The pack
phase completes into staging before any scatter write, so the scatter acts on
the original contents. -/
def exchanger_go_aliased (schedOf : Nat → ExchangeSchedule × ExchangeSchedule)
    (bufs : Nat → Nat → Int) (r : Nat) : Nat → Int :=
  scatterList (((schedOf r).2.buffer_indices).zip (recvStaging schedOf bufs r)) (bufs r)

/-- Level lift of one leg's slot list: every original slot `s` expands to the
`nlevels` slots `s + L * stride`, `L = 0 .. nlevels - 1`. -/
def liftIdx (nlevels stride : Nat) (idxs : List Nat) : List Nat :=
  (idxs.map (fun s => (List.range nlevels).map (fun L => s + L * stride))).flatten

/-- Level lift of a schedule: same peers, every leg expanded level-wise with
the stride of the role-side IndexList. -/
def lift_schedule (nlevels stride : Nat) (sch : ExchangeSchedule) : ExchangeSchedule :=
  ⟨sch.legs.map (fun leg => (leg.1, liftIdx nlevels stride leg.2))⟩

/-- Level lift of a whole map: each rank's send schedule is lifted with its
source IndexList length as stride, its recv schedule with its destination
IndexList length; a purely local derivation with no transport traffic. -/
def lift_map (gs : GState) (nlevels : Nat) (r : Nat) :
    ExchangeSchedule × ExchangeSchedule :=
  (lift_schedule nlevels (srcOf gs r).length (send_schedule gs r),
   lift_schedule nlevels (dstOf gs r).length (recv_schedule gs r))

/-- Leg slot list of a schedule toward a given peer, empty when absent. -/
def legOf (sch : ExchangeSchedule) (peer : Nat) : List Nat :=
  (findLeg peer sch.legs).getD []

/-- Scenario of `map_test01`: 4 ranks, 4x4 domain, row-interleaved sources on
ranks 0 and 1, destination row blocks of 8 indices each on ranks 2 and 3. -/
def test01_state : GState :=
  [([0, 1, 4, 5, 8, 9, 12, 13], []), ([2, 3, 6, 7, 10, 11, 14, 15], []),
   ([], [0, 1, 2, 3, 4, 5, 6, 7]), ([], [8, 9, 10, 11, 12, 13, 14, 15])]

/-- Row-to-block scenario 1 of the specification: same sources, destination
blocks of 9 and 7 indices. -/
def scen1_state : GState :=
  [([0, 1, 4, 5, 8, 9, 12, 13], []), ([2, 3, 6, 7, 10, 11, 14, 15], []),
   ([], [0, 1, 2, 3, 4, 5, 6, 7, 8]), ([], [9, 10, 11, 12, 13, 14, 15])]

/-- Interleaved-source scenario 2 (also the base map of `example_basic3`):
rank `r < 2` owns the indices congruent to `r` mod 2. -/
def scen2_state : GState :=
  [([0, 2, 4, 6, 8, 10, 12, 14], []), ([1, 3, 5, 7, 9, 11, 13, 15], []),
   ([], [0, 1, 2, 3, 4, 5, 6, 7]), ([], [8, 9, 10, 11, 12, 13, 14, 15])]

/-- Unmatched scenario 5: the sources drop global index 7 while rank 2 still
requests it. -/
def scen5_state : GState :=
  [([0, 1, 4, 5, 8, 9, 12, 13], []), ([2, 3, 6, 10, 11, 14, 15], []),
   ([], [0, 1, 2, 3, 4, 5, 6, 7, 8]), ([], [9, 10, 11, 12, 13, 14, 15])]

/-- Sender payload of `example_basic3`: position `p` of the two-level buffer
of source rank `r` holds `p + 16 * r`. -/
def basic3_payload : Nat → Nat → Int :=
  fun r p => if r < 2 then (p : Int) + 16 * r else 0

/-- All-zero buffers. -/
def zeroBufs : Nat → Nat → Int := fun _ _ => 0

/-- Round-trip payload of scenario 6: `x[i] = 1000 + i + rank`. -/
def xpay : Nat → Nat → Int := fun r q => 1000 + q + r

/-- Source side of the tiny round-trip pair: rank 0 owns index 5. -/
def rtA : List (List Int) := [[5], []]

/-- Destination side of the tiny round-trip pair: rank 1 wants index 5. -/
def rtB : List (List Int) := [[], [5]]

theorem findSlot_spec {i : Int} : ∀ {l : List Int} {s : Nat},
    findSlot i l = some s → l[s]? = some i := by
  intro l
  induction l with
  | nil => intro s h; simp [findSlot] at h
  | cons x xs ih =>
    intro s h
    simp only [findSlot] at h
    by_cases hx : x = i
    · simp [hx] at h; subst h; simp [hx]
    · simp only [hx, if_false, Option.map_eq_some'] at h
      obtain ⟨s', hs', rfl⟩ := h
      simpa using ih hs'

theorem findSlot_eq_none {i : Int} : ∀ {l : List Int},
    findSlot i l = none ↔ i ∉ l := by
  intro l
  induction l with
  | nil => simp [findSlot]
  | cons x xs ih =>
    simp only [findSlot, List.mem_cons]
    by_cases hx : x = i
    · simp [hx]
    · simp [hx, ih, Ne.symm hx]

theorem ownerFrom_spec {i : Int} : ∀ {ps : List (Nat × List Int)} {o s : Nat},
    ownerFrom i ps = some (o, s) → ∃ l, (o, l) ∈ ps ∧ findSlot i l = some s := by
  intro ps
  induction ps with
  | nil => intro o s h; simp [ownerFrom] at h
  | cons p rest ih =>
    intro o s h
    simp only [ownerFrom] at h
    cases hf : findSlot i p.2 with
    | some s' =>
      rw [hf] at h
      obtain ⟨rfl, rfl⟩ : p.1 = o ∧ s' = s := by
        constructor <;> (cases h; rfl)
      exact ⟨p.2, List.mem_cons_self _ _, hf⟩
    | none =>
      rw [hf] at h
      obtain ⟨l, hl, hfl⟩ := ih h
      exact ⟨l, List.mem_cons_of_mem _ hl, hfl⟩

theorem ownerOf_spec {gs : GState} {i : Int} {o s : Nat}
    (h : ownerOf gs i = some (o, s)) :
    o < gs.length ∧ (srcOf gs o)[s]? = some i := by
  obtain ⟨l, hl, hf⟩ := ownerFrom_spec h
  simp only [List.mem_map, List.mem_range] at hl
  obtain ⟨r, hr, heq⟩ := hl
  obtain ⟨rfl, rfl⟩ : r = o ∧ l = srcOf gs r := by
    constructor <;> (cases heq; rfl)
  exact ⟨hr, findSlot_spec hf⟩

theorem ownerFrom_eq_none {i : Int} : ∀ {ps : List (Nat × List Int)},
    ownerFrom i ps = none ↔ ∀ p ∈ ps, findSlot i p.2 = none := by
  intro ps
  induction ps with
  | nil => simp [ownerFrom]
  | cons p rest ih =>
    simp only [ownerFrom, List.mem_cons]
    cases hf : findSlot i p.2 with
    | some s => simp [hf]
    | none =>
      constructor
      · intro h q hq
        rcases hq with rfl | hq
        · exact hf
        · exact ih.mp h q hq
      · intro h
        exact ih.mpr (fun q hq => h q (Or.inr hq))

theorem ownerOf_eq_none {gs : GState} {i : Int} :
    ownerOf gs i = none ↔ ∀ r < gs.length, i ∉ srcOf gs r := by
  unfold ownerOf
  rw [ownerFrom_eq_none]
  constructor
  · intro h r hr
    have := h (r, srcOf gs r) (by simp only [List.mem_map]; exact ⟨r, List.mem_range.mpr hr, rfl⟩)
    exact findSlot_eq_none.mp this
  · intro h p hp
    simp only [List.mem_map, List.mem_range] at hp
    obtain ⟨r, hr, rfl⟩ := hp
    exact findSlot_eq_none.mpr (h r hr)

theorem mem_rankTuplesAux {gs : GState} {w : Nat} {t : MatchTuple} :
    ∀ {l : List Int} {d : Nat}, t ∈ rankTuplesAux gs w d l →
    t.wanter = w ∧ d ≤ t.dst_slot ∧
      ∃ i, l[t.dst_slot - d]? = some i ∧ ownerOf gs i = some (t.owner, t.src_slot) := by
  intro l
  induction l with
  | nil => intro d h; simp [rankTuplesAux] at h
  | cons i rest ih =>
    intro d h
    simp only [rankTuplesAux] at h
    cases ho : ownerOf gs i with
    | some os =>
      rw [ho] at h
      rcases List.mem_cons.mp h with rfl | h
      · exact ⟨rfl, Nat.le_refl _, i, by simp, by simpa using ho⟩
      · obtain ⟨hw, hd, j, hj, hoj⟩ := ih h
        refine ⟨hw, Nat.le_of_succ_le hd, j, ?_, hoj⟩
        have h1 : t.dst_slot - d = (t.dst_slot - (d + 1)) + 1 := by omega
        rw [h1]
        simpa using hj
    | none =>
      rw [ho] at h
      obtain ⟨hw, hd, j, hj, hoj⟩ := ih h
      refine ⟨hw, Nat.le_of_succ_le hd, j, ?_, hoj⟩
      have h1 : t.dst_slot - d = (t.dst_slot - (d + 1)) + 1 := by omega
      rw [h1]
      simpa using hj

theorem rankTuplesAux_of_get {gs : GState} {w : Nat} :
    ∀ {l : List Int} {d m : Nat} {i : Int} {o s : Nat},
    l[m]? = some i → ownerOf gs i = some (o, s) →
    (⟨o, s, w, d + m⟩ : MatchTuple) ∈ rankTuplesAux gs w d l := by
  intro l
  induction l with
  | nil => intro d m i o s h; simp at h
  | cons x rest ih =>
    intro d m i o s h ho
    cases m with
    | zero =>
      simp only [List.getElem?_cons_zero, Option.some.injEq] at h
      subst h
      simp only [rankTuplesAux, ho]
      exact List.mem_cons_self _ _
    | succ m' =>
      simp only [List.getElem?_cons_succ] at h
      have := ih (d := d + 1) h ho
      have harith : d + 1 + m' = d + (m' + 1) := by omega
      rw [harith] at this
      simp only [rankTuplesAux]
      cases hx : ownerOf gs x with
      | some os => exact List.mem_cons_of_mem _ this
      | none => exact this

theorem mem_rankTuples {gs : GState} {w : Nat} {t : MatchTuple}
    (h : t ∈ rankTuples gs w) :
    t.wanter = w ∧
      ∃ i, (dstOf gs w)[t.dst_slot]? = some i ∧
        ownerOf gs i = some (t.owner, t.src_slot) := by
  obtain ⟨hw, _, i, hi, ho⟩ := mem_rankTuplesAux (l := dstOf gs w) (d := 0) h
  exact ⟨hw, i, by simpa using hi, ho⟩

theorem rankTuples_of_get {gs : GState} {w m : Nat} {i : Int} {o s : Nat}
    (h : (dstOf gs w)[m]? = some i) (ho : ownerOf gs i = some (o, s)) :
    (⟨o, s, w, m⟩ : MatchTuple) ∈ rankTuples gs w := by
  have := rankTuplesAux_of_get (w := w) (d := 0) h ho
  simpa using this

theorem mem_allTuples {gs : GState} {t : MatchTuple} :
    t ∈ allTuples gs ↔ t.wanter < gs.length ∧ t ∈ rankTuples gs t.wanter := by
  constructor
  · intro h
    simp only [allTuples, List.mem_flatten, List.mem_map] at h
    obtain ⟨l, ⟨w, hw, rfl⟩, ht⟩ := h
    have hw' := (mem_rankTuples ht).1
    subst hw'
    exact ⟨List.mem_range.mp hw, ht⟩
  · intro ⟨hw, ht⟩
    simp only [allTuples, List.mem_flatten, List.mem_map]
    exact ⟨rankTuples gs t.wanter, ⟨t.wanter, List.mem_range.mpr hw, rfl⟩, ht⟩

/-- Every match tuple references in-range ranks and slots. -/
theorem tuple_bounds {gs : GState} {t : MatchTuple} (h : t ∈ allTuples gs) :
    t.owner < gs.length ∧ t.wanter < gs.length ∧
      t.src_slot < (srcOf gs t.owner).length ∧
      t.dst_slot < (dstOf gs t.wanter).length := by
  obtain ⟨hw, ht⟩ := mem_allTuples.mp h
  obtain ⟨_, i, hi, ho⟩ := mem_rankTuples ht
  obtain ⟨hol, hos⟩ := ownerOf_spec ho
  refine ⟨hol, hw, ?_, ?_⟩
  · exact (List.getElem?_eq_some.mp hos).1
  · exact (List.getElem?_eq_some.mp hi).1

/-- A match tuple carries matching endpoint values: the source slot on the
owner and the destination slot on the wanter name the same global index. -/
theorem tuple_value {gs : GState} {t : MatchTuple} (h : t ∈ allTuples gs) :
    ∃ i, (dstOf gs t.wanter)[t.dst_slot]? = some i ∧
      (srcOf gs t.owner)[t.src_slot]? = some i := by
  obtain ⟨hw, ht⟩ := mem_allTuples.mp h
  obtain ⟨_, i, hi, ho⟩ := mem_rankTuples ht
  exact ⟨i, hi, (ownerOf_spec ho).2⟩

/-- Within one wanter rank, a match tuple is determined by its destination
slot: the slot fixes the requested index, whose owner is unique. -/
theorem matchTuple_eq {t₁ t₂ : MatchTuple} (h1 : t₁.owner = t₂.owner)
    (h2 : t₁.src_slot = t₂.src_slot) (h3 : t₁.wanter = t₂.wanter)
    (h4 : t₁.dst_slot = t₂.dst_slot) : t₁ = t₂ := by
  cases t₁; cases t₂
  simp only at h1 h2 h3 h4
  simp [h1, h2, h3, h4]

theorem tuple_unique {gs : GState} {t₁ t₂ : MatchTuple}
    (h₁ : t₁ ∈ allTuples gs) (h₂ : t₂ ∈ allTuples gs)
    (hw : t₁.wanter = t₂.wanter) (hd : t₁.dst_slot = t₂.dst_slot) : t₁ = t₂ := by
  obtain ⟨_, ht₁⟩ := mem_allTuples.mp h₁
  obtain ⟨_, ht₂⟩ := mem_allTuples.mp h₂
  obtain ⟨_, i₁, hi₁, ho₁⟩ := mem_rankTuples ht₁
  obtain ⟨_, i₂, hi₂, ho₂⟩ := mem_rankTuples ht₂
  rw [hw, hd] at hi₁
  rw [hi₂] at hi₁
  have hii := Option.some.inj hi₁
  subst hii
  rw [ho₂] at ho₁
  have hp := Option.some.inj ho₁
  exact matchTuple_eq (congrArg Prod.fst hp).symm (congrArg Prod.snd hp).symm hw hd

theorem dst_slot_pairwise {gs : GState} {w : Nat} :
    ∀ {l : List Int} {d : Nat},
    (rankTuplesAux gs w d l).Pairwise (fun a b => a.dst_slot < b.dst_slot) := by
  intro l
  induction l with
  | nil => intro d; simp [rankTuplesAux]
  | cons i rest ih =>
    intro d
    simp only [rankTuplesAux]
    cases ho : ownerOf gs i with
    | some os =>
      refine List.Pairwise.cons ?_ ih
      intro t ht
      have := (mem_rankTuplesAux ht).2.1
      simpa using Nat.lt_of_lt_of_le (Nat.lt_succ_self d) this
    | none => exact ih

theorem nodup_rankTuples {gs : GState} {w : Nat} : (rankTuples gs w).Nodup :=
  (dst_slot_pairwise (l := dstOf gs w) (d := 0)).imp (fun h => by
    intro he; rw [he] at h; exact Nat.lt_irrefl _ h)

theorem nodup_allTuples {gs : GState} : (allTuples gs).Nodup := by
  rw [allTuples, List.nodup_join]
  constructor
  · intro l hl
    simp only [List.mem_map] at hl
    obtain ⟨w, _, rfl⟩ := hl
    exact nodup_rankTuples
  · rw [List.pairwise_map]
    refine (List.pairwise_lt_range _).imp ?_
    intro a b hab t hta htb
    have ha := (mem_rankTuples hta).1
    have hb := (mem_rankTuples htb).1
    omega

/-- The two views of one leg coincide: the tuples rank `r` sends to rank `w`
are the tuples rank `w` receives from rank `r`. -/
theorem legTuples_symm (gs : GState) (r w : Nat) :
    legTuplesSend gs r w = legTuplesRecv gs w r := by
  unfold legTuplesSend legTuplesRecv
  exact List.filter_congr' (fun t _ => by
    simp only [Bool.and_comm])

theorem mem_legTuplesSend {gs : GState} {r w : Nat} {t : MatchTuple}
    (h : t ∈ legTuplesSend gs r w) :
    t ∈ allTuples gs ∧ t.owner = r ∧ t.wanter = w := by
  have := List.mem_filter.mp h
  have h2 := this.2
  simp only [Bool.and_eq_true, beq_iff_eq] at h2
  exact ⟨this.1, h2⟩

theorem mem_legTuplesRecv {gs : GState} {r o : Nat} {t : MatchTuple}
    (h : t ∈ legTuplesRecv gs r o) :
    t ∈ allTuples gs ∧ t.wanter = r ∧ t.owner = o := by
  have := List.mem_filter.mp h
  have h2 := this.2
  simp only [Bool.and_eq_true, beq_iff_eq] at h2
  exact ⟨this.1, h2⟩

theorem legTuplesSend_mem_iff {gs : GState} {r w : Nat} {t : MatchTuple} :
    t ∈ legTuplesSend gs r w ↔ t ∈ allTuples gs ∧ t.owner = r ∧ t.wanter = w := by
  constructor
  · exact mem_legTuplesSend
  · intro ⟨h, ho, hw⟩
    refine List.mem_filter.mpr ⟨h, ?_⟩
    simp [ho, hw]

theorem legTuplesRecv_mem_iff {gs : GState} {r o : Nat} {t : MatchTuple} :
    t ∈ legTuplesRecv gs r o ↔ t ∈ allTuples gs ∧ t.wanter = r ∧ t.owner = o := by
  constructor
  · exact mem_legTuplesRecv
  · intro ⟨h, hw, ho⟩
    refine List.mem_filter.mpr ⟨h, ?_⟩
    simp [ho, hw]

theorem findLeg_map_keys (f : Nat → List Nat) :
    ∀ (ks : List Nat) (w : Nat),
    findLeg w (ks.map (fun k => (k, f k))) =
      if w ∈ ks then some (f w) else none := by
  intro ks
  induction ks with
  | nil => intro w; simp [findLeg]
  | cons k rest ih =>
    intro w
    simp only [List.map_cons, findLeg, List.mem_cons]
    by_cases hk : k = w
    · subst hk; simp
    · simp only [hk, if_false]
      rw [ih]
      by_cases hw : w ∈ rest
      · simp [hw]
      · simp [hw, Ne.symm hk]

theorem recv_legs_mem {gs : GState} {r : Nat} {o : Nat} {l : List Nat}
    (h : (o, l) ∈ (recv_schedule gs r).legs) :
    o < gs.length ∧ legTuplesRecv gs r o ≠ [] ∧
      l = (legTuplesRecv gs r o).map (·.dst_slot) := by
  simp only [recv_schedule, List.mem_map, List.mem_filter, List.mem_range] at h
  obtain ⟨o', ⟨ho', hne⟩, heq⟩ := h
  obtain ⟨rfl, rfl⟩ : o' = o ∧ (legTuplesRecv gs r o').map (·.dst_slot) = l := by
    constructor <;> (cases heq; rfl)
  refine ⟨ho', ?_, rfl⟩
  intro hnil
  rw [hnil] at hne
  simp at hne

theorem recv_legs_mem_intro {gs : GState} {r o : Nat}
    (ho : o < gs.length) (hne : legTuplesRecv gs r o ≠ []) :
    (o, (legTuplesRecv gs r o).map (·.dst_slot)) ∈ (recv_schedule gs r).legs := by
  simp only [recv_schedule, List.mem_map, List.mem_filter, List.mem_range]
  refine ⟨o, ⟨ho, ?_⟩, rfl⟩
  simpa [List.isEmpty_iff] using hne

theorem findLeg_send_schedule {gs : GState} {o r : Nat}
    (hr : r < gs.length) (hne : legTuplesSend gs o r ≠ []) :
    findLeg r (send_schedule gs o).legs =
      some ((legTuplesSend gs o r).map (·.src_slot)) := by
  unfold send_schedule
  rw [findLeg_map_keys (fun w => (legTuplesSend gs o w).map (·.src_slot))]
  have : r ∈ (List.range gs.length).filter (fun w => !(legTuplesSend gs o w).isEmpty) := by
    refine List.mem_filter.mpr ⟨List.mem_range.mpr hr, ?_⟩
    simpa [List.isEmpty_iff] using hne
  simp [this]

theorem findLeg_send_schedule_none {gs : GState} {o r : Nat}
    (h : legTuplesSend gs o r = []) :
    findLeg r (send_schedule gs o).legs = none := by
  unfold send_schedule
  rw [findLeg_map_keys (fun w => (legTuplesSend gs o w).map (·.src_slot))]
  have : r ∉ (List.range gs.length).filter (fun w => !(legTuplesSend gs o w).isEmpty) := by
    intro hmem
    have := (List.mem_filter.mp hmem).2
    simp [h] at this
  simp [this]

theorem findLeg_recv_schedule {gs : GState} {r o : Nat}
    (ho : o < gs.length) (hne : legTuplesRecv gs r o ≠ []) :
    findLeg o (recv_schedule gs r).legs =
      some ((legTuplesRecv gs r o).map (·.dst_slot)) := by
  unfold recv_schedule
  rw [findLeg_map_keys (fun o' => (legTuplesRecv gs r o').map (·.dst_slot))]
  have : o ∈ (List.range gs.length).filter (fun o' => !(legTuplesRecv gs r o').isEmpty) := by
    refine List.mem_filter.mpr ⟨List.mem_range.mpr ho, ?_⟩
    simpa [List.isEmpty_iff] using hne
  simp [this]

theorem findLeg_recv_schedule_none {gs : GState} {r o : Nat}
    (h : legTuplesRecv gs r o = []) :
    findLeg o (recv_schedule gs r).legs = none := by
  unfold recv_schedule
  rw [findLeg_map_keys (fun o' => (legTuplesRecv gs r o').map (·.dst_slot))]
  have : o ∉ (List.range gs.length).filter (fun o' => !(legTuplesRecv gs r o').isEmpty) := by
    intro hmem
    have := (List.mem_filter.mp hmem).2
    simp [h] at this
  simp [this]

theorem mem_recv_buffer_indices {gs : GState} {r p : Nat} :
    p ∈ (recv_schedule gs r).buffer_indices ↔
      ∃ t ∈ allTuples gs, t.wanter = r ∧ t.dst_slot = p := by
  unfold ExchangeSchedule.buffer_indices
  simp only [List.mem_flatten, List.mem_map]
  constructor
  · rintro ⟨l, ⟨leg, hleg, rfl⟩, hp⟩
    obtain ⟨_, _, hl⟩ := recv_legs_mem (r := r) (o := leg.1) (l := leg.2) hleg
    rw [hl] at hp
    simp only [List.mem_map] at hp
    obtain ⟨t, ht, rfl⟩ := hp
    obtain ⟨hall, hw, _⟩ := mem_legTuplesRecv ht
    exact ⟨t, hall, hw, rfl⟩
  · intro ⟨t, hall, hw, hd⟩
    have hbounds := tuple_bounds hall
    have ht : t ∈ legTuplesRecv gs r t.owner :=
      legTuplesRecv_mem_iff.mpr ⟨hall, hw, rfl⟩
    have hne : legTuplesRecv gs r t.owner ≠ [] := by
      intro hnil; rw [hnil] at ht; simp at ht
    have hmem := recv_legs_mem_intro (r := r) hbounds.1 hne
    refine ⟨(legTuplesRecv gs r t.owner).map (·.dst_slot),
      ⟨(t.owner, (legTuplesRecv gs r t.owner).map (·.dst_slot)), hmem, rfl⟩, ?_⟩
    simp only [List.mem_map]
    exact ⟨t, ht, hd⟩

theorem nodup_legTuplesRecv_dst {gs : GState} {r o : Nat} :
    ((legTuplesRecv gs r o).map (·.dst_slot)).Nodup := by
  have hsub : (legTuplesRecv gs r o).Nodup :=
    List.Nodup.filter _ nodup_allTuples
  refine (List.nodup_map_iff_inj_on hsub).mpr ?_
  intro t₁ h₁ t₂ h₂ hdd
  obtain ⟨ha₁, hw₁, _⟩ := mem_legTuplesRecv h₁
  obtain ⟨ha₂, hw₂, _⟩ := mem_legTuplesRecv h₂
  exact tuple_unique ha₁ ha₂ (hw₁.trans hw₂.symm) hdd

theorem nodup_recv_buffer_indices {gs : GState} {r : Nat} :
    (recv_schedule gs r).buffer_indices.Nodup := by
  unfold ExchangeSchedule.buffer_indices
  rw [List.nodup_join]
  constructor
  · intro l hl
    simp only [List.mem_map] at hl
    obtain ⟨leg, hleg, rfl⟩ := hl
    obtain ⟨_, _, hl⟩ := recv_legs_mem (o := leg.1) (l := leg.2) hleg
    rw [hl]
    exact nodup_legTuplesRecv_dst
  · unfold recv_schedule
    simp only [List.map_map]
    rw [List.pairwise_map]
    have hfil : ((List.range gs.length).filter
        (fun o => !(legTuplesRecv gs r o).isEmpty)).Pairwise (· < ·) :=
      (List.pairwise_lt_range _).sublist (List.filter_sublist _)
    refine hfil.imp ?_
    intro o₁ o₂ hlt
    simp only [Function.comp]
    intro p hp₁ hp₂
    simp only [List.mem_map] at hp₁ hp₂
    obtain ⟨t₁, ht₁, hd₁⟩ := hp₁
    obtain ⟨t₂, ht₂, hd₂⟩ := hp₂
    obtain ⟨ha₁, hw₁, ho₁⟩ := mem_legTuplesRecv ht₁
    obtain ⟨ha₂, hw₂, ho₂⟩ := mem_legTuplesRecv ht₂
    have := tuple_unique ha₁ ha₂ (hw₁.trans hw₂.symm) (hd₁.trans hd₂.symm)
    rw [this] at ho₁
    rw [ho₁] at ho₂
    omega

theorem pack_eq (buf : Nat → Int) (sch : ExchangeSchedule) :
    pack buf sch = (sch.legs.map (fun leg => leg.2.map buf)).flatten := by
  unfold pack ExchangeSchedule.buffer_indices
  rw [List.map_flatten, List.map_map]
  rfl

theorem flatten_slice (buf : Nat → Int) :
    ∀ (legs : List (Nat × List Nat)) (peer : Nat) (idxs : List Nat),
    findLeg peer legs = some idxs →
    (((legs.map (fun leg => leg.2.map buf)).flatten).drop (legOffset peer legs)).take
        idxs.length = idxs.map buf := by
  intro legs
  induction legs with
  | nil => intro peer idxs h; simp [findLeg] at h
  | cons leg rest ih =>
    intro peer idxs h
    simp only [findLeg, legOffset] at h ⊢
    by_cases hp : leg.1 = peer
    · simp only [hp, if_true] at h ⊢
      cases h
      simp only [List.map_cons, List.flatten_cons, List.drop_zero]
      rw [← List.length_map leg.2 buf]
      exact List.take_left _ _
    · simp only [hp, if_false] at h ⊢
      rw [List.map_cons, List.flatten_cons, ← List.length_map leg.2 buf,
        List.drop_append]
      exact ih peer idxs h

theorem wire_eq {sch : ExchangeSchedule} {peer : Nat} {idxs : List Nat}
    (buf : Nat → Int) (h : findLeg peer sch.legs = some idxs) :
    wire sch buf peer = idxs.map buf := by
  unfold wire
  rw [h, pack_eq]
  exact flatten_slice buf sch.legs peer idxs h

theorem wire_length {sch : ExchangeSchedule} {peer : Nat} {idxs : List Nat}
    (buf : Nat → Int) (h : findLeg peer sch.legs = some idxs) :
    (wire sch buf peer).length = idxs.length := by
  rw [wire_eq buf h, List.length_map]

theorem scatterList_notin : ∀ (pairs : List (Nat × Int)) (base : Nat → Int) (p : Nat),
    p ∉ pairs.map Prod.fst → scatterList pairs base p = base p := by
  intro pairs
  induction pairs with
  | nil => intro base p _; rfl
  | cons pv rest ih =>
    intro base p hp
    simp only [List.map_cons, List.mem_cons] at hp
    push_neg at hp
    simp only [scatterList]
    rw [ih _ _ hp.2]
    simp [writeAt, hp.1]

theorem scatterList_mem : ∀ (pairs : List (Nat × Int)) (base : Nat → Int)
    (pv : Nat × Int), (pairs.map Prod.fst).Nodup → pv ∈ pairs →
    scatterList pairs base pv.1 = pv.2 := by
  intro pairs
  induction pairs with
  | nil => intro base pv _ h; simp at h
  | cons qv rest ih =>
    intro base pv hnd hmem
    simp only [List.map_cons, List.nodup_cons] at hnd
    simp only [scatterList]
    rcases List.mem_cons.mp hmem with rfl | hmem
    · rw [scatterList_notin _ _ _ hnd.1]
      simp [writeAt]
    · exact ih _ pv hnd.2 hmem

theorem scatterList_congr : ∀ (pairs : List (Nat × Int)) (b₁ b₂ : Nat → Int),
    (∀ q, b₁ q = b₂ q) → ∀ p, scatterList pairs b₁ p = scatterList pairs b₂ p := by
  intro pairs
  induction pairs with
  | nil => intro b₁ b₂ h p; exact h p
  | cons pv rest ih =>
    intro b₁ b₂ h p
    simp only [scatterList]
    refine ih _ _ ?_ p
    intro q
    simp only [writeAt]
    by_cases hq : q = pv.1 <;> simp [hq, h q]

theorem forall₂_len_of_maps {α β γ : Type} : ∀ (l : List α) (f : α → List β)
    (g : α → List γ), (∀ x ∈ l, (f x).length = (g x).length) →
    List.Forall₂ (fun a b => a.length = b.length) (l.map f) (l.map g) := by
  intro l f g
  induction l with
  | nil => intro _; simp
  | cons x rest ih =>
    intro h
    simp only [List.map_cons]
    exact List.Forall₂.cons (h x (List.mem_cons_self _ _))
      (ih (fun y hy => h y (List.mem_cons_of_mem _ hy)))

theorem zip_flatten_of_forall₂ : ∀ {As : List (List Nat)} {Bs : List (List Int)},
    List.Forall₂ (fun a b => a.length = b.length) As Bs →
    As.flatten.zip Bs.flatten = (List.zipWith List.zip As Bs).flatten := by
  intro As Bs h
  induction h with
  | nil => rfl
  | @cons a b As' Bs' hab _ ih =>
    simp only [List.flatten_cons, List.zipWith_cons_cons]
    rw [List.zip_append hab, ih]

theorem zipWith_map_same {α β γ δ : Type} (h : β → γ → δ) :
    ∀ (l : List α) (f : α → β) (g : α → γ),
    List.zipWith h (l.map f) (l.map g) = l.map (fun x => h (f x) (g x)) := by
  intro l f g
  induction l with
  | nil => rfl
  | cons x rest ih => simp only [List.map_cons, List.zipWith_cons_cons, ih]

/-- Central exchange lemma: when the receive leg of rank `r` from rank `o` is
matched by a send leg of equal length on `o`, the `m`-th slot of the receive
leg gets the source-buffer value at the `m`-th slot of the send leg. -/
theorem go_spec {schedOf : Nat → ExchangeSchedule × ExchangeSchedule}
    {bufs base : Nat → Nat → Int} {r o : Nat} {ridxs sidxs : List Nat} {m : Nat}
    (h1 : (o, ridxs) ∈ (schedOf r).2.legs)
    (h2 : findLeg r ((schedOf o).1.legs) = some sidxs)
    (h3 : ∀ leg ∈ (schedOf r).2.legs, ∃ s', findLeg r ((schedOf leg.1).1.legs) = some s' ∧
      s'.length = leg.2.length)
    (h4 : ((schedOf r).2.buffer_indices).Nodup)
    {pos sv : Nat} (hm : ridxs[m]? = some pos) (hs : sidxs[m]? = some sv) :
    exchanger_go schedOf bufs base r pos = bufs o sv := by
  have hlen : ∀ leg ∈ (schedOf r).2.legs,
      (wire (schedOf leg.1).1 (bufs leg.1) r).length = leg.2.length := by
    intro leg hleg
    obtain ⟨s', hfind, hslen⟩ := h3 leg hleg
    rw [wire_length (bufs leg.1) hfind, hslen]
  have hpairs : ((schedOf r).2.buffer_indices).zip (recvStaging schedOf bufs r) =
      ((schedOf r).2.legs.map
        (fun leg => leg.2.zip (wire (schedOf leg.1).1 (bufs leg.1) r))).flatten := by
    unfold ExchangeSchedule.buffer_indices recvStaging
    rw [zip_flatten_of_forall₂ (forall₂_len_of_maps _ _ _
      (fun leg hleg => (hlen leg hleg).symm)),
      zipWith_map_same]
  have hfst : (((schedOf r).2.buffer_indices).zip (recvStaging schedOf bufs r)).map
      Prod.fst = (schedOf r).2.buffer_indices := by
    apply List.map_fst_zip
    apply Nat.le_of_eq
    unfold ExchangeSchedule.buffer_indices recvStaging
    rw [List.length_flatten, List.length_flatten, List.map_map, List.map_map]
    exact congrArg List.sum
      (List.map_congr_left (fun leg hleg => by
        simp only [Function.comp]
        exact (hlen leg hleg).symm))
  have hpairmem : (pos, bufs o sv) ∈
      ((schedOf r).2.buffer_indices).zip (recvStaging schedOf bufs r) := by
    rw [hpairs]
    rw [List.mem_flatten]
    refine ⟨ridxs.zip (sidxs.map (bufs o)), ?_, ?_⟩
    · rw [List.mem_map]
      refine ⟨(o, ridxs), h1, ?_⟩
      rw [wire_eq (bufs o) h2]
    · refine List.getElem?_mem (n := m) ?_
      rw [List.getElem?_zip_eq_some]
      refine ⟨hm, ?_⟩
      rw [List.getElem?_map, hs]
      rfl
  show scatterList _ (base r) pos = bufs o sv
  have := scatterList_mem (((schedOf r).2.buffer_indices).zip
      (recvStaging schedOf bufs r)) (base r) (pos, bufs o sv) (by rw [hfst]; exact h4)
    hpairmem
  exact this

/-- Destination slots outside the receive permutation keep the destination
buffer's prior contents. -/
theorem go_unwritten (schedOf : Nat → ExchangeSchedule × ExchangeSchedule)
    {bufs base : Nat → Nat → Int} {r p : Nat}
    (h : p ∉ (schedOf r).2.buffer_indices) :
    exchanger_go schedOf bufs base r p = base r p := by
  apply scatterList_notin
  intro hmem
  simp only [List.mem_map] at hmem
  obtain ⟨pv, hpv, rfl⟩ := hmem
  exact h (List.mem_zip hpv).1

/-- Every receive leg of a constructed map is matched by a send leg of the
same length on the peer: the symmetry produced by the shared phase-3 ordering
rule. -/
theorem map_matched (gs : GState) (r : Nat) :
    ∀ leg ∈ (map_sched gs r).2.legs, ∃ s',
      findLeg r ((map_sched gs leg.1).1.legs) = some s' ∧
        s'.length = leg.2.length := by
  simp only [map_sched]
  intro leg hleg
  obtain ⟨ho, hne, hl⟩ := recv_legs_mem (o := leg.1) (l := leg.2) hleg
  have hsymm := legTuples_symm gs leg.1 r
  have hr : r < gs.length := by
    obtain ⟨t, ht⟩ := List.exists_mem_of_ne_nil _ hne
    have := (mem_legTuplesRecv ht).2.1
    subst this
    exact (tuple_bounds (mem_legTuplesRecv ht).1).2.1
  have hne' : legTuplesSend gs leg.1 r ≠ [] := by rw [hsymm]; exact hne
  refine ⟨(legTuplesSend gs leg.1 r).map (·.src_slot),
    findLeg_send_schedule hr hne', ?_⟩
  rw [hsymm, hl]
  simp

/-- Tuple-level semantics of one exchange on a constructed map: the wanter's
destination slot receives the owner's source-buffer value at the matched
source slot. -/
theorem go_tuple {gs : GState} {t : MatchTuple} (bufs base : Nat → Nat → Int)
    (h : t ∈ allTuples gs) :
    exchanger_go (map_sched gs) bufs base t.wanter t.dst_slot =
      bufs t.owner t.src_slot := by
  have hbounds := tuple_bounds h
  have ht : t ∈ legTuplesRecv gs t.wanter t.owner :=
    legTuplesRecv_mem_iff.mpr ⟨h, rfl, rfl⟩
  have hne : legTuplesRecv gs t.wanter t.owner ≠ [] := by
    intro hnil; rw [hnil] at ht; simp at ht
  have h1 := recv_legs_mem_intro (r := t.wanter) hbounds.1 hne
  have hsymm := legTuples_symm gs t.owner t.wanter
  have hne' : legTuplesSend gs t.owner t.wanter ≠ [] := by rw [hsymm]; exact hne
  have h2 := findLeg_send_schedule (o := t.owner) hbounds.2.1 hne'
  rw [hsymm] at h2
  obtain ⟨m, hm⟩ := List.getElem?_of_mem ht
  have hm' : ((legTuplesRecv gs t.wanter t.owner).map (·.dst_slot))[m]? =
      some t.dst_slot := by rw [List.getElem?_map, hm]; rfl
  have hs' : ((legTuplesRecv gs t.wanter t.owner).map (·.src_slot))[m]? =
      some t.src_slot := by rw [List.getElem?_map, hm]; rfl
  exact go_spec h1 h2 (map_matched gs t.wanter) nodup_recv_buffer_indices hm' hs'

theorem offsetsAux_eq : ∀ (sizes : List Nat) (acc : Nat),
    offsetsAux acc sizes =
      (List.range sizes.length).map (fun j => acc + (sizes.take j).sum) := by
  intro sizes
  induction sizes with
  | nil => intro acc; rfl
  | cons s rest ih =>
    intro acc
    simp only [offsetsAux, List.length_cons]
    rw [List.range_succ_eq_map, List.map_cons, List.map_map, ih]
    refine congrArg₂ List.cons (by simp) ?_
    refine List.map_congr_left ?_
    intro j _
    simp only [Function.comp, List.take_succ_cons, List.sum_cons]
    omega

/-- Schedule offsets are the prefix sums of the leg sizes. -/
theorem buffer_offsets_eq (sch : ExchangeSchedule) :
    sch.buffer_offsets =
      (List.range sch.count).map (fun j => (sch.leg_sizes.take j).sum) := by
  unfold ExchangeSchedule.buffer_offsets
  rw [offsetsAux_eq]
  have hc : sch.leg_sizes.length = sch.count := by
    unfold ExchangeSchedule.leg_sizes ExchangeSchedule.count
    simp
  rw [hc]
  exact List.map_congr_left (fun j _ => by omega)

/-- The sum of the leg sizes is the schedule's total buffer size. -/
theorem leg_sizes_sum (sch : ExchangeSchedule) :
    sch.leg_sizes.sum = sch.buffer_size := by
  unfold ExchangeSchedule.leg_sizes ExchangeSchedule.buffer_size
    ExchangeSchedule.buffer_indices
  rw [List.length_flatten, List.map_map]
  rfl

theorem send_peer_ranks (gs : GState) (r : Nat) :
    (send_schedule gs r).peer_ranks =
      (List.range gs.length).filter (fun w => !(legTuplesSend gs r w).isEmpty) := by
  unfold send_schedule ExchangeSchedule.peer_ranks
  rw [List.map_map]
  exact List.map_congr_left (fun w _ => rfl) |>.trans (List.map_id _)

theorem recv_peer_ranks (gs : GState) (r : Nat) :
    (recv_schedule gs r).peer_ranks =
      (List.range gs.length).filter (fun o => !(legTuplesRecv gs r o).isEmpty) := by
  unfold recv_schedule ExchangeSchedule.peer_ranks
  rw [List.map_map]
  exact List.map_congr_left (fun w _ => rfl) |>.trans (List.map_id _)

/-- Peer legs of either schedule are listed with strictly ascending peer
ranks. -/
theorem peer_ranks_sorted (gs : GState) (r : Nat) :
    (send_schedule gs r).peer_ranks.Pairwise (· < ·) ∧
      (recv_schedule gs r).peer_ranks.Pairwise (· < ·) := by
  constructor
  · rw [send_peer_ranks]
    exact (List.pairwise_lt_range _).sublist (List.filter_sublist _)
  · rw [recv_peer_ranks]
    exact (List.pairwise_lt_range _).sublist (List.filter_sublist _)

theorem mem_unmatchedOf {gs : GState} {i : Int} :
    i ∈ unmatchedOf gs ↔
      ∃ w < gs.length, i ∈ dstOf gs w ∧ ownerOf gs i = none := by
  unfold unmatchedOf
  simp only [List.mem_flatten, List.mem_map]
  constructor
  · rintro ⟨l, ⟨w, hw, rfl⟩, hi⟩
    have := List.mem_filter.mp hi
    refine ⟨w, List.mem_range.mp hw, this.1, ?_⟩
    simpa [Option.isNone_iff_eq_none] using this.2
  · rintro ⟨w, hw, hi, hnone⟩
    refine ⟨(dstOf gs w).filter (fun i => (ownerOf gs i).isNone),
      ⟨w, List.mem_range.mpr hw, rfl⟩, ?_⟩
    refine List.mem_filter.mpr ⟨hi, ?_⟩
    simp [hnone]

theorem unmatchedOf_eq_nil {gs : GState} :
    unmatchedOf gs = [] ↔
      ¬ ∃ w < gs.length, ∃ i ∈ dstOf gs w, ownerOf gs i = none := by
  rw [List.eq_nil_iff_forall_not_mem]
  constructor
  · rintro h ⟨w, hw, i, hi, hnone⟩
    exact h i (mem_unmatchedOf.mpr ⟨w, hw, hi, hnone⟩)
  · intro h i hi
    obtain ⟨w, hw, hmem, hnone⟩ := mem_unmatchedOf.mp hi
    exact h ⟨w, hw, i, hmem, hnone⟩

theorem liftIdx_append (k stride : Nat) (a b : List Nat) :
    liftIdx k stride (a ++ b) = liftIdx k stride a ++ liftIdx k stride b := by
  simp [liftIdx]

theorem liftIdx_length (k stride : Nat) : ∀ (idxs : List Nat),
    (liftIdx k stride idxs).length = idxs.length * k := by
  intro idxs
  induction idxs with
  | nil => simp [liftIdx]
  | cons s rest ih =>
    simp only [liftIdx, List.map_cons, List.flatten_cons, List.length_append,
      List.length_map, List.length_range, List.length_cons] at ih ⊢
    rw [ih]
    ring

theorem liftIdx_getElem (stride : Nat) {k L : Nat} (hL : L < k) :
    ∀ (idxs : List Nat) (m : Nat),
    (liftIdx k stride idxs)[m * k + L]? = (idxs[m]?).map (· + L * stride) := by
  intro idxs
  induction idxs with
  | nil => intro m; simp [liftIdx]
  | cons s rest ih =>
    intro m
    have hblock : liftIdx k stride (s :: rest) =
        ((List.range k).map (fun l => s + l * stride)) ++ liftIdx k stride rest := by
      simp [liftIdx]
    rw [hblock]
    cases m with
    | zero =>
      simp only [Nat.zero_mul, Nat.zero_add]
      rw [List.getElem?_append]
      simp only [List.length_map, List.length_range]
      rw [if_pos hL, List.getElem?_map, List.getElem?_range hL]
      simp
    | succ m' =>
      have hlen : ((List.range k).map (fun l => s + l * stride)).length = k := by simp
      have hge : ((List.range k).map (fun l => s + l * stride)).length ≤
          (m' + 1) * k + L := by rw [hlen]; nlinarith
      rw [List.getElem?_append_right hge, hlen]
      have harith : (m' + 1) * k + L - k = m' * k + L := by
        have : (m' + 1) * k = m' * k + k := by ring
        omega
      rw [harith, ih m']
      simp

theorem mem_liftIdx {k stride v : Nat} {idxs : List Nat} :
    v ∈ liftIdx k stride idxs ↔ ∃ s ∈ idxs, ∃ L < k, v = s + L * stride := by
  unfold liftIdx
  simp only [List.mem_flatten, List.mem_map, List.mem_range]
  constructor
  · rintro ⟨l, ⟨s, hs, rfl⟩, hv⟩
    simp only [List.mem_map, List.mem_range] at hv
    obtain ⟨L, hL, rfl⟩ := hv
    exact ⟨s, hs, L, hL, rfl⟩
  · rintro ⟨s, hs, L, hL, rfl⟩
    refine ⟨(List.range k).map (fun l => s + l * stride), ⟨s, hs, rfl⟩, ?_⟩
    simp only [List.mem_map, List.mem_range]
    exact ⟨L, hL, rfl⟩

theorem lift_decomp_unique {stride p s L M : Nat} (hp : p < stride)
    (hs : s < stride) (h : p + L * stride = s + M * stride) : p = s ∧ L = M := by
  have hmod : (p + L * stride) % stride = (s + M * stride) % stride := by rw [h]
  rw [Nat.add_mul_mod_self_right, Nat.add_mul_mod_self_right,
    Nat.mod_eq_of_lt hp, Nat.mod_eq_of_lt hs] at hmod
  subst hmod
  refine ⟨rfl, ?_⟩
  have hstride : 0 < stride := Nat.lt_of_le_of_lt (Nat.zero_le p) hp
  have hLM : L * stride = M * stride := Nat.add_left_cancel h
  exact Nat.eq_of_mul_eq_mul_right hstride hLM

theorem nodup_liftIdx {k stride : Nat} {idxs : List Nat}
    (hb : ∀ s ∈ idxs, s < stride) (hnd : idxs.Nodup) :
    (liftIdx k stride idxs).Nodup := by
  unfold liftIdx
  rw [List.nodup_join]
  constructor
  · intro l hl
    simp only [List.mem_map] at hl
    obtain ⟨s, hs, rfl⟩ := hl
    refine (List.nodup_range k).map ?_
    intro a b hab
    have hstride : 0 < stride := Nat.lt_of_le_of_lt (Nat.zero_le _) (hb s hs)
    simp only at hab
    have hab' : a * stride = b * stride := Nat.add_left_cancel hab
    exact Nat.eq_of_mul_eq_mul_right hstride hab' 
  · rw [List.pairwise_map]
    refine hnd.imp_of_mem ?_
    intro s₁ s₂ h₁ h₂ hne
    intro v hv₁ hv₂
    simp only [List.mem_map, List.mem_range] at hv₁ hv₂
    obtain ⟨L₁, hL₁, hveq₁⟩ := hv₁
    obtain ⟨L₂, hL₂, hveq₂⟩ := hv₂
    have := lift_decomp_unique (hb s₁ h₁) (hb s₂ h₂)
      (hveq₁.trans hveq₂.symm : s₁ + L₁ * stride = s₂ + L₂ * stride)
    exact hne this.1

theorem findLeg_map_snd (f : List Nat → List Nat) :
    ∀ (legs : List (Nat × List Nat)) (peer : Nat),
    findLeg peer (legs.map (fun leg => (leg.1, f leg.2))) =
      (findLeg peer legs).map f := by
  intro legs
  induction legs with
  | nil => intro peer; rfl
  | cons leg rest ih =>
    intro peer
    simp only [List.map_cons, findLeg]
    by_cases hp : leg.1 = peer
    · simp [hp]
    · simp only [hp, if_false]
      exact ih peer

theorem lift_buffer_indices (k stride : Nat) (sch : ExchangeSchedule) :
    (lift_schedule k stride sch).buffer_indices =
      liftIdx k stride sch.buffer_indices := by
  unfold lift_schedule ExchangeSchedule.buffer_indices
  simp only [List.map_map]
  induction sch.legs with
  | nil => rfl
  | cons leg rest ih =>
    simp only [List.map_cons, List.flatten_cons, liftIdx_append]
    rw [← ih]
    rfl

theorem recv_slot_bound {gs : GState} {r p : Nat}
    (h : p ∈ (recv_schedule gs r).buffer_indices) :
    p < (dstOf gs r).length := by
  obtain ⟨t, hall, hw, hd⟩ := mem_recv_buffer_indices.mp h
  have := (tuple_bounds hall).2.2.2
  rw [hw, hd] at this
  exact this

theorem lift_leg_sizes (k stride : Nat) (sch : ExchangeSchedule) :
    (lift_schedule k stride sch).leg_sizes = sch.leg_sizes.map (· * k) := by
  unfold lift_schedule ExchangeSchedule.leg_sizes
  rw [List.map_map, List.map_map]
  exact List.map_congr_left (fun leg _ => liftIdx_length k stride leg.2)

theorem lift_matched (gs : GState) (k r : Nat) :
    ∀ leg ∈ (lift_map gs k r).2.legs, ∃ s',
      findLeg r ((lift_map gs k leg.1).1.legs) = some s' ∧
        s'.length = leg.2.length := by
  intro leg hleg
  simp only [lift_map, lift_schedule] at hleg
  rw [List.mem_map] at hleg
  obtain ⟨leg0, hleg0, rfl⟩ := hleg
  obtain ⟨s0, hfind0, hlen0⟩ := map_matched gs r leg0 hleg0
  refine ⟨liftIdx k (srcOf gs leg0.1).length s0, ?_, ?_⟩
  · simp only [lift_map, lift_schedule]
    rw [findLeg_map_snd]
    simp only [map_sched] at hfind0
    rw [hfind0]
    rfl
  · simp only [liftIdx_length]
    rw [hlen0]

theorem nodup_lift_recv (gs : GState) (k r : Nat) :
    ((lift_map gs k r).2.buffer_indices).Nodup := by
  show ((lift_schedule k (dstOf gs r).length (recv_schedule gs r)).buffer_indices).Nodup
  rw [lift_buffer_indices]
  exact nodup_liftIdx (fun s hs => recv_slot_bound hs) nodup_recv_buffer_indices

/-- Level-commutation of the lifted exchange: slot `p` of level `L` after one
exchange through the lifted map equals slot `p` after a base-map exchange on
the level-`L` slices of all buffers. -/
theorem lift_go_level (gs : GState) (k L p r : Nat) (bufs base : Nat → Nat → Int)
    (hL : L < k) (hp : p < (dstOf gs r).length) :
    exchanger_go (lift_map gs k) bufs base r (p + L * (dstOf gs r).length) =
      exchanger_go (map_sched gs)
        (fun o q => bufs o (q + L * (srcOf gs o).length))
        (fun o q => base o (q + L * (dstOf gs o).length)) r p := by
  by_cases hex : ∃ t ∈ allTuples gs, t.wanter = r ∧ t.dst_slot = p
  · obtain ⟨t, hall, hw, hd⟩ := hex
    subst hw
    subst hd
    rw [go_tuple (fun o q => bufs o (q + L * (srcOf gs o).length))
      (fun o q => base o (q + L * (dstOf gs o).length)) hall]
    have hbounds := tuple_bounds hall
    have ht : t ∈ legTuplesRecv gs t.wanter t.owner :=
      legTuplesRecv_mem_iff.mpr ⟨hall, rfl, rfl⟩
    have hne : legTuplesRecv gs t.wanter t.owner ≠ [] := by
      intro hnil; rw [hnil] at ht; simp at ht
    have h1base := recv_legs_mem_intro (r := t.wanter) hbounds.1 hne
    have h1 : (t.owner, liftIdx k (dstOf gs t.wanter).length
        ((legTuplesRecv gs t.wanter t.owner).map (·.dst_slot))) ∈
        (lift_map gs k t.wanter).2.legs := by
      simp only [lift_map, lift_schedule]
      rw [List.mem_map]
      exact ⟨(t.owner, (legTuplesRecv gs t.wanter t.owner).map (·.dst_slot)),
        h1base, rfl⟩
    have hsymm := legTuples_symm gs t.owner t.wanter
    have hne' : legTuplesSend gs t.owner t.wanter ≠ [] := by
      rw [hsymm]; exact hne
    have h2base := findLeg_send_schedule (o := t.owner) hbounds.2.1 hne'
    rw [hsymm] at h2base
    have h2 : findLeg t.wanter ((lift_map gs k t.owner).1.legs) =
        some (liftIdx k (srcOf gs t.owner).length
          ((legTuplesRecv gs t.wanter t.owner).map (·.src_slot))) := by
      simp only [lift_map, lift_schedule]
      rw [findLeg_map_snd, h2base]
      rfl
    obtain ⟨m, hm⟩ := List.getElem?_of_mem ht
    have hmr : ((legTuplesRecv gs t.wanter t.owner).map (·.dst_slot))[m]? =
        some t.dst_slot := by rw [List.getElem?_map, hm]; rfl
    have hms : ((legTuplesRecv gs t.wanter t.owner).map (·.src_slot))[m]? =
        some t.src_slot := by rw [List.getElem?_map, hm]; rfl
    have hmlift := liftIdx_getElem (dstOf gs t.wanter).length hL
      ((legTuplesRecv gs t.wanter t.owner).map (·.dst_slot)) m
    rw [hmr] at hmlift
    have hslift := liftIdx_getElem (srcOf gs t.owner).length hL
      ((legTuplesRecv gs t.wanter t.owner).map (·.src_slot)) m
    rw [hms] at hslift
    exact go_spec h1 h2 (lift_matched gs k t.wanter) (nodup_lift_recv gs k t.wanter)
      hmlift hslift
  · have hnot : p ∉ (recv_schedule gs r).buffer_indices := by
      intro hmem
      exact hex (mem_recv_buffer_indices.mp hmem)
    rw [go_unwritten (map_sched gs) hnot]
    have hnotlift : (p + L * (dstOf gs r).length) ∉
        (lift_map gs k r).2.buffer_indices := by
      intro hmem
      have heq : (lift_map gs k r).2.buffer_indices =
          liftIdx k (dstOf gs r).length (recv_schedule gs r).buffer_indices :=
        lift_buffer_indices k (dstOf gs r).length (recv_schedule gs r)
      rw [heq] at hmem
      obtain ⟨s, hsmem, L', hL', hveq⟩ := mem_liftIdx.mp hmem
      obtain ⟨hps, _⟩ := lift_decomp_unique hp (recv_slot_bound hsmem) hveq
      exact hnot (hps ▸ hsmem)
    rw [go_unwritten (lift_map gs k) hnotlift]

theorem zip_state_proj {A B : List (List Int)} {w : Nat}
    (hA : w < A.length) (hB : w < B.length) :
    srcOf (A.zip B) w = A.get ⟨w, hA⟩ ∧ dstOf (A.zip B) w = B.get ⟨w, hB⟩ := by
  have hzA : A[w]? = some (A.get ⟨w, hA⟩) := List.getElem_eq_iff.mp rfl
  have hzB : B[w]? = some (B.get ⟨w, hB⟩) := List.getElem_eq_iff.mp rfl
  have hzip : (A.zip B)[w]? = some (A.get ⟨w, hA⟩, B.get ⟨w, hB⟩) :=
    List.getElem?_zip_eq_some.mpr ⟨hzA, hzB⟩
  unfold srcOf dstOf
  show (((A.zip B).getD w ([], [])).1 = _) ∧ (((A.zip B).getD w ([], [])).2 = _)
  rw [List.getD_eq_getElem?_getD, hzip]
  exact ⟨rfl, rfl⟩

/-- Claim C1: for every collectively built map and ordered rank pair (r, s),
the send leg of r toward s and the recv leg of s from r have the same leg
size, and they reference the same sequence of global indices — positions of
the send-side buffer indices in r's source IndexList, positions of the
recv-side buffer indices in s's destination IndexList. -/
theorem claim_C1_symmetry (gs : GState) (r s : Nat) :
    (legOf (send_schedule gs r) s).length = (legOf (recv_schedule gs s) r).length ∧
    (legOf (send_schedule gs r) s).map (fun q => (srcOf gs r)[q]?) =
      (legOf (recv_schedule gs s) r).map (fun q => (dstOf gs s)[q]?) := by
  have hsymm := legTuples_symm gs r s
  by_cases hne : legTuplesSend gs r s = []
  · have hner : legTuplesRecv gs s r = [] := by rw [← hsymm]; exact hne
    unfold legOf
    rw [findLeg_send_schedule_none hne, findLeg_recv_schedule_none hner]
    simp
  · have hner : legTuplesRecv gs s r ≠ [] := by rw [← hsymm]; exact hne
    obtain ⟨t, ht⟩ := List.exists_mem_of_ne_nil _ hne
    obtain ⟨hall, howner, hwanter⟩ := mem_legTuplesSend ht
    have hbounds := tuple_bounds hall
    have hs_lt : s < gs.length := by rw [← hwanter]; exact hbounds.2.1
    have hr_lt : r < gs.length := by rw [← howner]; exact hbounds.1
    unfold legOf
    rw [findLeg_send_schedule hs_lt hne, findLeg_recv_schedule hr_lt hner]
    simp only [Option.getD_some]
    rw [← hsymm]
    constructor
    · simp
    · rw [List.map_map, List.map_map]
      refine List.map_congr_left ?_
      intro u hu
      obtain ⟨hallu, hou, hwu⟩ := mem_legTuplesSend hu
      obtain ⟨j, hj₁, hj₂⟩ := tuple_value hallu
      simp only [Function.comp]
      rw [hou] at hj₂
      rw [hwu] at hj₁
      rw [hj₁, hj₂]

/-- Claim C2: exchanging a payload through `map(A, B)` and the result back
through `map(B, A)` restores the original value at every originating slot —
stated at the canonical (first) occurrence of each index in `A`, which is the
permutation induced by duplicates; the index must have some owner in `B` for
the return map to match it. -/
theorem claim_C2_round_trip (A B : List (List Int)) (x base₁ base₂ : Nat → Nat → Int)
    (i : Int) (r p : Nat) (hlen : A.length = B.length)
    (hAB : ownerOf (A.zip B) i = some (r, p))
    (hBA : (ownerOf (B.zip A) i).isSome = true) :
    exchanger_go (map_sched (B.zip A))
      (exchanger_go (map_sched (A.zip B)) x base₁) base₂ r p = x r p := by
  obtain ⟨wd, hBA'⟩ := Option.isSome_iff_exists.mp hBA
  obtain ⟨w, d⟩ := wd
  have hABs := ownerOf_spec hAB
  have hBAs := ownerOf_spec hBA'
  have hlenAB : (A.zip B).length = A.length := by rw [List.length_zip]; omega
  have hlenBA : (B.zip A).length = A.length := by rw [List.length_zip]; omega
  have hrA : r < A.length := hlenAB ▸ hABs.1
  have hwA : w < A.length := hlenBA ▸ hBAs.1
  have hrB : r < B.length := by omega
  have hwB : w < B.length := by omega
  have hdsteq : dstOf (A.zip B) w = srcOf (B.zip A) w := by
    rw [(zip_state_proj hwA hwB).2, (zip_state_proj hwB hwA).1]
  have hdst_w : (dstOf (A.zip B) w)[d]? = some i := by rw [hdsteq]; exact hBAs.2
  have ht₁ : (⟨r, p, w, d⟩ : MatchTuple) ∈ allTuples (A.zip B) :=
    mem_allTuples.mpr ⟨by rw [hlenAB]; exact hwA, rankTuples_of_get hdst_w hAB⟩
  have hy := go_tuple x base₁ ht₁
  have hsrceq : dstOf (B.zip A) r = srcOf (A.zip B) r := by
    rw [(zip_state_proj hrB hrA).2, (zip_state_proj hrA hrB).1]
  have hdst_r : (dstOf (B.zip A) r)[p]? = some i := by rw [hsrceq]; exact hABs.2
  have ht₂ : (⟨w, d, r, p⟩ : MatchTuple) ∈ allTuples (B.zip A) :=
    mem_allTuples.mpr ⟨by rw [hlenBA]; exact hrA, rankTuples_of_get hdst_r hBA'⟩
  have hz := go_tuple
    (exchanger_go (map_sched (A.zip B)) x base₁) base₂ ht₂
  exact hz.trans hy

/-- Claim C2 witness: a concrete two-rank round trip through index 5 returns
the original payload value. -/
theorem claim_C2_witness :
    rtA.length = rtB.length ∧
    ownerOf (rtA.zip rtB) 5 = some (0, 0) ∧
    (ownerOf (rtB.zip rtA) 5).isSome = true ∧
    exchanger_go (map_sched (rtB.zip rtA))
      (exchanger_go (map_sched (rtA.zip rtB)) xpay zeroBufs) zeroBufs 0 0 =
      xpay 0 0 :=
  ⟨by decide, by decide, by decide,
    claim_C2_round_trip rtA rtB xpay zeroBufs zeroBufs 5 0 0
      (by decide) (by decide) (by decide)⟩

/-- Claim C3 counterexample: in the 9/7 row-to-block scenario the send legs of
rank 0 have sizes 5 and 3 (rank 0 owns five of the indices 0..8 and three of
9..15), not 6 and 2 as claimed. -/
theorem claim_C3_counterexample :
    (send_schedule scen1_state 0).leg_sizes = [5, 3] ∧
    ¬ (send_schedule scen1_state 0).leg_sizes = [6, 2] := by decide

/-- Claim C3 as amended: rank 0's recv schedule is empty, its send schedule
has exactly peers 2 and 3 with leg sizes 5 and 3, and rank 2's recv
buffer indices read out in order are 0,1,4,5,8,2,3,6,7, a permutation of the
local slots 0..8. -/
theorem claim_C3_amended :
    (recv_schedule scen1_state 0).legs = [] ∧
    (send_schedule scen1_state 0).count = 2 ∧
    (send_schedule scen1_state 0).peer_ranks = [2, 3] ∧
    (send_schedule scen1_state 0).leg_sizes = [5, 3] ∧
    (recv_schedule scen1_state 2).buffer_indices = [0, 1, 4, 5, 8, 2, 3, 6, 7] ∧
    (recv_schedule scen1_state 2).buffer_indices.Perm (List.range 9) := by decide

/-- Claim C4: in both schedules of every constructed map the peer legs are
sorted by peer rank strictly ascending, every buffer offset is the sum of the
leg sizes before it, and the leg sizes sum to the buffer size. -/
theorem claim_C4_layout (gs : GState) (r : Nat) :
    ((send_schedule gs r).peer_ranks.Pairwise (· < ·) ∧
      (send_schedule gs r).buffer_offsets =
        (List.range (send_schedule gs r).count).map
          (fun j => ((send_schedule gs r).leg_sizes.take j).sum) ∧
      (send_schedule gs r).leg_sizes.sum = (send_schedule gs r).buffer_size) ∧
    ((recv_schedule gs r).peer_ranks.Pairwise (· < ·) ∧
      (recv_schedule gs r).buffer_offsets =
        (List.range (recv_schedule gs r).count).map
          (fun j => ((recv_schedule gs r).leg_sizes.take j).sum) ∧
      (recv_schedule gs r).leg_sizes.sum = (recv_schedule gs r).buffer_size) :=
  ⟨⟨(peer_ranks_sorted gs r).1, buffer_offsets_eq _, leg_sizes_sum _⟩,
   ⟨(peer_ranks_sorted gs r).2, buffer_offsets_eq _, leg_sizes_sum _⟩⟩

/-- Claim C5: construction fails with UnmatchedIndex on every rank exactly
when some rank's destination list holds an index no rank owns; the error
payload is nonempty and lists only genuinely unowned requested indices; with
no such index every rank succeeds. -/
theorem claim_C5_unmatched (gs : GState) (stride : Int) (hpos : 0 < gs.length) :
    ((∀ r < gs.length, ∃ e, new_map gs stride r = Except.error e) ↔
      ∃ w < gs.length, ∃ i ∈ dstOf gs w, ownerOf gs i = none) ∧
    (∀ r e, new_map gs stride r = Except.error e →
      e ≠ [] ∧ ∀ i ∈ e, ownerOf gs i = none ∧ ∃ w < gs.length, i ∈ dstOf gs w) ∧
    ((¬ ∃ w < gs.length, ∃ i ∈ dstOf gs w, ownerOf gs i = none) →
      ∀ r, new_map gs stride r =
        Except.ok (send_schedule gs r, recv_schedule gs r)) := by
  refine ⟨⟨?_, ?_⟩, ?_, ?_⟩
  · intro h
    obtain ⟨e, he⟩ := h 0 hpos
    unfold new_map at he
    by_cases hnil : unmatchedOf gs = []
    · rw [if_pos hnil] at he; cases he
    · obtain ⟨i, hi⟩ := List.exists_mem_of_ne_nil _ hnil
      obtain ⟨w, hw, hmem, hnone⟩ := mem_unmatchedOf.mp hi
      exact ⟨w, hw, i, hmem, hnone⟩
  · intro h r _
    have hne : unmatchedOf gs ≠ [] := by
      intro hnil
      exact (unmatchedOf_eq_nil.mp hnil) h
    refine ⟨unmatchedOf gs, ?_⟩
    unfold new_map
    rw [if_neg hne]
  · intro r e he
    unfold new_map at he
    by_cases hnil : unmatchedOf gs = []
    · rw [if_pos hnil] at he; cases he
    · rw [if_neg hnil] at he
      have he' : e = unmatchedOf gs := by cases he; rfl
      subst he'
      refine ⟨hnil, ?_⟩
      intro i hi
      obtain ⟨w, hw, hmem, hnone⟩ := mem_unmatchedOf.mp hi
      exact ⟨hnone, w, hw, hmem⟩
  · intro h r
    unfold new_map
    rw [if_pos (unmatchedOf_eq_nil.mpr h)]

/-- Claim C5 witness: in the unmatched scenario every rank of the group
returns the UnmatchedIndex error. -/
theorem claim_C5_witness :
    0 < scen5_state.length ∧
    (∀ r < scen5_state.length, ∃ e, new_map scen5_state (-1) r = Except.error e) :=
  ⟨by decide, (claim_C5_unmatched scen5_state (-1) (by decide)).1.mpr
    ⟨2, by decide, 7, by decide, by decide⟩⟩

/-- Claim C6: the level lift is a local derivation multiplying every leg size
by the level count, and one exchange through the lifted map equals, level by
level, the base-map exchange on the corresponding buffer slices (source
slices strided by the source IndexList length, destination slices by the
destination IndexList length). -/
theorem claim_C6_lift (gs : GState) (k L p r : Nat) (bufs base : Nat → Nat → Int)
    (hk : 1 ≤ k) (hL : L < k) (hp : p < (dstOf gs r).length) :
    ((lift_map gs k r).1.leg_sizes = (send_schedule gs r).leg_sizes.map (· * k) ∧
      (lift_map gs k r).2.leg_sizes = (recv_schedule gs r).leg_sizes.map (· * k)) ∧
    exchanger_go (lift_map gs k) bufs base r (p + L * (dstOf gs r).length) =
      exchanger_go (map_sched gs)
        (fun o q => bufs o (q + L * (srcOf gs o).length))
        (fun o q => base o (q + L * (dstOf gs o).length)) r p :=
  ⟨⟨lift_leg_sizes k (srcOf gs r).length (send_schedule gs r),
    lift_leg_sizes k (dstOf gs r).length (recv_schedule gs r)⟩,
   lift_go_level gs k L p r bufs base hL hp⟩

/-- Claim C6 witness: level 1 of the lifted `example_basic3` exchange on rank
2 agrees with the base exchange on the level-1 slices. -/
theorem claim_C6_witness :
    1 ≤ 2 ∧ 1 < 2 ∧ 0 < (dstOf scen2_state 2).length ∧
    exchanger_go (lift_map scen2_state 2) basic3_payload zeroBufs 2
        (0 + 1 * (dstOf scen2_state 2).length) =
      exchanger_go (map_sched scen2_state)
        (fun o q => basic3_payload o (q + 1 * (srcOf scen2_state o).length))
        (fun o q => zeroBufs o (q + 1 * (dstOf scen2_state o).length)) 2 0 :=
  ⟨by decide, by decide, by decide,
    (claim_C6_lift scen2_state 2 1 0 2 basic3_payload zeroBufs
      (by decide) (by decide) (by decide)).2⟩

/-- Claim C7 counterexample: in the lifted 3D scenario the level-0 contents of
rank 2's buffer after the exchange are 0,16,1,17,2,18,3,19 — the values
claimed, 0,2,4,6,1,3,5,7, do not appear. -/
theorem claim_C7_counterexample :
    (List.range 8).map (exchanger_go (lift_map scen2_state 2) basic3_payload
        zeroBufs 2) = [0, 16, 1, 17, 2, 18, 3, 19] ∧
    ¬ (List.range 8).map (exchanger_go (lift_map scen2_state 2) basic3_payload
        zeroBufs 2) = [0, 2, 4, 6, 1, 3, 5, 7] := by decide

/-- Claim C7 as amended: rank 2's level-0 output is 0,16,1,17,2,18,3,19 (the
value of global cell `i` is `i / 2 + 16 * (i mod 2)`), level 1 is the same
shifted by 8, and the sequence 0,2,4,6,1,3,5,7 quoted by the claim is rank
2's recv `buffer_indices` permutation of the base map, not the output data. -/
theorem claim_C7_amended :
    (List.range 8).map (exchanger_go (lift_map scen2_state 2) basic3_payload
        zeroBufs 2) = [0, 16, 1, 17, 2, 18, 3, 19] ∧
    (List.range 8).map (fun q => exchanger_go (lift_map scen2_state 2)
        basic3_payload zeroBufs 2 (q + 8)) =
      ([0, 16, 1, 17, 2, 18, 3, 19] : List Int).map (· + 8) ∧
    (recv_schedule scen2_state 2).buffer_indices = [0, 2, 4, 6, 1, 3, 5, 7] := by
  decide

/-- Claim C8: map construction is deterministic — equal IndexList states give
identical construction results and byte-identical schedules on every rank. -/
theorem claim_C8_determinism (gs₁ gs₂ : GState) (stride : Int) (r : Nat)
    (h : gs₁ = gs₂) :
    new_map gs₁ stride r = new_map gs₂ stride r ∧
    send_schedule gs₁ r = send_schedule gs₂ r ∧
    recv_schedule gs₁ r = recv_schedule gs₂ r := by
  subst h
  exact ⟨rfl, rfl, rfl⟩

/-- Claim C8 witness: two runs on the `map_test01` state coincide. -/
theorem claim_C8_witness :
    test01_state = test01_state ∧
    new_map test01_state (-1) 0 = new_map test01_state (-1) 0 :=
  ⟨rfl, (claim_C8_determinism test01_state test01_state (-1) 0 rfl).1⟩

/-- Claim C9: an aliased exchange, source and destination being the same
buffer, leaves the buffer exactly as an exchange into a fresh copy of it
would — the pack into staging completes before any scatter write, so only the
prior contents are read. -/
theorem claim_C9_aliasing (schedOf : Nat → ExchangeSchedule × ExchangeSchedule)
    (bufs copyb : Nat → Nat → Int) (r q : Nat)
    (hcopy : ∀ o n, copyb o n = bufs o n) :
    exchanger_go_aliased schedOf bufs r q = exchanger_go schedOf bufs copyb r q := by
  unfold exchanger_go_aliased exchanger_go
  exact scatterList_congr _ _ _ (fun n => (hcopy r n).symm) q

/-- Claim C9 witness: the aliased `example_basic3` exchange agrees with the
two-buffer exchange on a copy at rank 2, slot 0. -/
theorem claim_C9_witness :
    (∀ o n, basic3_payload o n = basic3_payload o n) ∧
    exchanger_go_aliased (map_sched scen2_state) basic3_payload 2 0 =
      exchanger_go (map_sched scen2_state) basic3_payload basic3_payload 2 0 :=
  ⟨fun _ _ => rfl, claim_C9_aliasing (map_sched scen2_state) basic3_payload
    basic3_payload 2 0 (fun _ _ => rfl)⟩

/-- Claim C10: the reference expectations of `map_test01` — construction with
stride hint −1 succeeds, every sender's send schedule has peers 2 and 3 with
four elements each, buffer size 8, offsets 0 and 4, and the identity
permutation as buffer indices; every receiver's recv schedule has peers 0 and
1, buffer size 8, offsets 0 and 4, and buffer indices 0,1,4,5,2,3,6,7. -/
theorem claim_C10_reference_map :
    new_map test01_state (-1) 0 =
      Except.ok (send_schedule test01_state 0, recv_schedule test01_state 0) ∧
    ((send_schedule test01_state 0).count = 2 ∧
      (send_schedule test01_state 0).peer_ranks = [2, 3] ∧
      (send_schedule test01_state 0).buffer_size = 8 ∧
      (send_schedule test01_state 0).buffer_offsets = [0, 4] ∧
      (send_schedule test01_state 0).leg_sizes = [4, 4] ∧
      (send_schedule test01_state 0).buffer_indices = List.range 8) ∧
    ((send_schedule test01_state 1).count = 2 ∧
      (send_schedule test01_state 1).peer_ranks = [2, 3] ∧
      (send_schedule test01_state 1).buffer_size = 8 ∧
      (send_schedule test01_state 1).buffer_offsets = [0, 4] ∧
      (send_schedule test01_state 1).leg_sizes = [4, 4] ∧
      (send_schedule test01_state 1).buffer_indices = List.range 8) ∧
    ((recv_schedule test01_state 2).count = 2 ∧
      (recv_schedule test01_state 2).peer_ranks = [0, 1] ∧
      (recv_schedule test01_state 2).buffer_size = 8 ∧
      (recv_schedule test01_state 2).buffer_offsets = [0, 4] ∧
      (recv_schedule test01_state 2).buffer_indices = [0, 1, 4, 5, 2, 3, 6, 7]) ∧
    ((recv_schedule test01_state 3).count = 2 ∧
      (recv_schedule test01_state 3).peer_ranks = [0, 1] ∧
      (recv_schedule test01_state 3).buffer_size = 8 ∧
      (recv_schedule test01_state 3).buffer_offsets = [0, 4] ∧
      (recv_schedule test01_state 3).buffer_indices = [0, 1, 4, 5, 2, 3, 6, 7]) := by
  refine ⟨rfl, ?_, ?_, ?_, ?_⟩ <;> decide
